import Mathlib

/-
Verification of the mcts_rs Monte Carlo Tree Search engine (src/mcts.rs)
and its tic-tac-toe game implementation (src/bin/tictactoe.rs).

Modelling decisions (shallow embedding of the Rust source):
* `f64` counters `wins` and `visits` only ever receive `+= 1.0` and
  `+= r` with `r ∈ {0.0, 0.5, 1.0}`, so every reachable value is a small
  dyadic rational, represented exactly by `f64`.  We model `visits : ℕ`
  and `wins : ℚ`; on the reachable range the Rust float arithmetic and
  comparisons agree exactly with the model.
* The UCT score `wins/visits + sqrt(2*ln(parent.visits)/visits)` is a
  transcendental `f64` expression; we model it by the exact real number
  (`Real.sqrt`, `Real.log`), and `partial_cmp(..).unwrap()` by the total
  comparison on ℝ.  Division is Lean's total division; the engine
  invariant (claim C6) shows the divisors are nonzero in reachable
  states, where the Rust expression is NaN-free and the two agree.
* `Box<dyn GameState>` is modelled by a record of pure functions over a
  state type `σ`; `clone()` is the identity of a pure value.
* `thread_rng` is modelled by an explicit stream of numbers: `simulate`
  receives `rng : ℕ → ℕ` and uses `rng fuel % legal.length` as the index
  drawn at each playout step, and the decision loop receives one stream
  per iteration.  Quantifying over all streams covers all rng behaviours.
* Rust recursion (`select`, `backpropagate`) and loops (`simulate`'s
  playout, the `for` loop of `get_best_move`) are modelled with explicit
  fuel, or with a decreasing-index guard (`backpropagate` recurses into
  the parent only when its index is smaller, which holds for every arena
  the program builds since children are always appended after their
  parent).  Panics and playout non-termination are modelled by `Option`.
-/

/-- The `GameState` trait of src/mcts.rs, as a record of pure operations
over a state type `σ`.  `clone` is omitted: a pure value is its own
independent deep copy. -/
structure Game (σ : Type) where
  get_legal_moves : σ → List Nat
  make_move : σ → Nat → σ
  is_terminal : σ → Bool
  get_winner : σ → Option Int

/-- The `Node` struct of src/mcts.rs.  `wins : f64` is modelled by ℚ and
`visits : f64` by ℕ (both are exact on every reachable value). -/
structure Node (σ : Type) where
  state : σ
  parent : Option Nat
  children : List Nat
  wins : ℚ
  visits : Nat
  untried_actions : List Nat
  last_action : Option Nat
deriving DecidableEq

/-- The `MCTS` struct of src/mcts.rs: a root index and an arena of nodes. -/
structure MCTS (σ : Type) where
  root : Nat
  nodes : List (Node σ)
deriving DecidableEq

instance (σ : Type) [Inhabited σ] : Inhabited (Node σ) :=
  ⟨⟨default, none, [], 0, 0, [], none⟩⟩

/-- Rust's `Iterator::max_by`: maximum under a comparator, `none` on an
empty sequence, and the LAST of several equal maxima (as documented for
`max_by`, whose fold keeps the new element unless it is strictly less). -/
def maxBy {α : Type} (cmp : α → α → Ordering) (l : List α) : Option α :=
  l.foldl
    (fun acc x =>
      match acc with
      | none => some x
      | some m => if cmp x m = Ordering.lt then some m else some x)
    none

/-- The comparison `partial_cmp(..).unwrap()` on a linear order (exact model of the f64
comparison on the NaN-free reachable values). -/
def cmpLin {β : Type} [LinearOrder β] (x y : β) : Ordering :=
  if x < y then Ordering.lt else if x = y then Ordering.eq else Ordering.gt

/-- The UCT score computed inside `select` and `expand`:
`wins/visits + sqrt(2 * ln(parent.visits) / visits)`, over exact reals. -/
noncomputable def uctVal {σ : Type} [Inhabited σ] (t : MCTS σ) (parent c : Nat) : ℝ :=
  let nc := t.nodes.getD c default
  (nc.wins : ℝ) / (nc.visits : ℝ) +
    Real.sqrt (2 * Real.log ((t.nodes.getD parent default).visits : ℝ) / (nc.visits : ℝ))

/-- Function `MCTS::new` (src/mcts.rs lines 40-52): a one-node arena whose root
holds the initial state, zero counters, and the state's legal moves as
untried actions. -/
def MCTS.new {σ : Type} (g : Game σ) (state : σ) : MCTS σ :=
  ⟨0, [⟨state, none, [], 0, 0, g.get_legal_moves state, none⟩]⟩

/-- Function `MCTS::select` (src/mcts.rs lines 55-74).  The Rust recursion is given
explicit fuel (the callers pass the arena size, which bounds the depth of
every arena the program builds); out-of-bounds indexing is modelled by a
default node with no untried actions and no children. -/
noncomputable def MCTS.select {σ : Type} [Inhabited σ] (t : MCTS σ) : Nat → Nat → Nat
  | 0, i => i
  | fuel + 1, i =>
    let n := t.nodes.getD i default
    if n.untried_actions.isEmpty then
      match maxBy (fun a b => cmpLin (uctVal t i a) (uctVal t i b)) n.children with
      | some c => t.select fuel c
      | none => i
    else i

/-- Function `MCTS::expand` (src/mcts.rs lines 77-111).  With untried actions the
last one is popped, applied to a copy of the node's state, and a fresh
node is appended to the arena and to the node's children; otherwise the
max-UCT child (or the node itself, if childless) is returned with the
arena unchanged. -/
noncomputable def MCTS.expand {σ : Type} [Inhabited σ] (t : MCTS σ) (g : Game σ) (i : Nat) :
    MCTS σ × Nat :=
  let n := t.nodes.getD i default
  if n.untried_actions.isEmpty then
    match maxBy (fun a b => cmpLin (uctVal t i a) (uctVal t i b)) n.children with
    | some c => (t, c)
    | none => (t, i)
  else
    let action := n.untried_actions.getLastD 0
    let s := g.make_move n.state action
    let child : Node σ := ⟨s, some i, [], 0, 0, g.get_legal_moves s, some action⟩
    (⟨t.root,
      (t.nodes.set i
        { n with
          untried_actions := n.untried_actions.dropLast,
          children := n.children ++ [t.nodes.length] }) ++ [child]⟩,
     t.nodes.length)

/-- The playout loop inside `MCTS::simulate`: play a random legal move
until the position is terminal.  `none` models a panic (indexing an empty
legal-move list) or running out of fuel. -/
def rollout {σ : Type} (g : Game σ) (rng : Nat → Nat) : Nat → σ → Option σ
  | 0, s => if g.is_terminal s then some s else none
  | fuel + 1, s =>
    if g.is_terminal s then some s
    else
      let lm := g.get_legal_moves s
      if lm.isEmpty then none
      else rollout g rng fuel (g.make_move s (lm.getD (rng fuel % lm.length) 0))

/-- Function `MCTS::simulate` (src/mcts.rs lines 114-128): playout from the node's
state, then map the winner to a reward; `none` models the
`panic!("Unexpected winner")` (and playout non-termination). -/
def MCTS.simulate {σ : Type} [Inhabited σ] (t : MCTS σ) (g : Game σ) (rng : Nat → Nat)
    (fuel : Nat) (i : Nat) : Option ℚ :=
  match rollout g rng fuel (t.nodes.getD i default).state with
  | none => none
  | some s =>
    match g.get_winner s with
    | none => none
    | some w =>
      if w = 0 then some (1 / 2)
      else if w = 1 then some 1
      else if w = -1 then some 0
      else none

/-- The single-node update of `MCTS::backpropagate`: one more visit and
the reward added to the wins at node `i`. -/
def bpOne {σ : Type} [Inhabited σ] (t : MCTS σ) (i : Nat) (r : ℚ) : MCTS σ :=
  ⟨t.root,
   t.nodes.set i
     { t.nodes.getD i default with
       visits := (t.nodes.getD i default).visits + 1,
       wins := (t.nodes.getD i default).wins + r }⟩

/-- The recursion of `backpropagate` with structural fuel.  The parent
index is strictly smaller than the node index in every arena the program
builds (children are appended after their parent), so fuel equal to the
starting index always suffices; the fuel only makes the Lean recursion
structural (and kernel-reducible). -/
def MCTS.backpropAux {σ : Type} [Inhabited σ] (t : MCTS σ) : Nat → Nat → ℚ → MCTS σ
  | 0, i, r => bpOne t i r
  | fuel + 1, i, r =>
    match (t.nodes.getD i default).parent with
    | none => bpOne t i r
    | some p => if p < i then (bpOne t i r).backpropAux fuel p r else bpOne t i r

/-- Function `MCTS::backpropagate` (src/mcts.rs lines 131-137): add 1 to
`visits` and the reward to `wins` at the node, then recurse into the
parent until a node with no parent is reached. -/
def MCTS.backpropagate {σ : Type} [Inhabited σ] (t : MCTS σ) (i : Nat) (r : ℚ) : MCTS σ :=
  t.backpropAux i i r

/-- The chain of indices `i, parent i, parent (parent i), ...` that
`backpropagate` walks (same decreasing-index guard). -/
def parentChain {σ : Type} [Inhabited σ] (t : MCTS σ) (i : Nat) : List Nat :=
  match (t.nodes.getD i default).parent with
  | none => [i]
  | some p => if _h : p < i then i :: parentChain t p else [i]
termination_by i
decreasing_by exact _h

/-- The `for` loop of `MCTS::get_best_move` (src/mcts.rs lines 141-149),
with the remaining iteration budget as the recursion argument.  Returns
the final arena together with the number of completed
simulate-and-backpropagate iterations; `none` models a panic inside
`simulate`.  `rng k` is the random stream used by the iteration with `k`
budget remaining, and `sf` the playout fuel. -/
noncomputable def searchLoop {σ : Type} [Inhabited σ] (g : Game σ) (rng : Nat → Nat → Nat)
    (sf : Nat) : Nat → MCTS σ → Option (MCTS σ × Nat)
  | 0, t => some (t, 0)
  | k + 1, t =>
    let sel := t.select t.nodes.length t.root
    let p := t.expand g sel
    if p.2 = sel then some (p.1, 0)
    else
      match p.1.simulate g (rng k) sf p.2 with
      | none => none
      | some r =>
        Option.map (fun q => (q.1, q.2 + 1)) (searchLoop g rng sf k (p.1.backpropagate p.2 r))

/-- Function `MCTS::get_best_move` (src/mcts.rs lines 140-165): run the loop, then
return the `last_action` of the root child with the most visits.  `none`
models the panics (`"Failed to get best move"` when the root has no
children, `unwrap` of a missing `last_action`, or a panic inside the
loop). -/
noncomputable def MCTS.get_best_move {σ : Type} [Inhabited σ] (t : MCTS σ) (g : Game σ)
    (rng : Nat → Nat → Nat) (sf : Nat) (iterations : Nat) : Option Nat :=
  match searchLoop g rng sf iterations t with
  | none => none
  | some (t', _) =>
    match maxBy
        (fun a b =>
          cmpLin (t'.nodes.getD a default).visits (t'.nodes.getD b default).visits)
        ((t'.nodes.getD t'.root default).children) with
    | none => none
    | some c => (t'.nodes.getD c default).last_action

/-- The `Player` enum of src/bin/tictactoe.rs. -/
inductive Player : Type
  | X
  | O
deriving DecidableEq

/-- The `TicTacToe` struct of src/bin/tictactoe.rs; the 9-cell array is a
list (the theorems about it carry the length where it matters). -/
structure TicTacToe where
  board : List (Option Player)
  player : Player
deriving DecidableEq

/-- Method `TicTacToe::get_legal_moves`: indices of the empty cells. -/
def TicTacToe.get_legal_moves (t : TicTacToe) : List Nat :=
  ((t.board.enum.filter fun ic => ic.2.isNone).map fun ic => ic.1)

/-- Method `TicTacToe::make_move`: place the current player's mark and swap the
player to move. -/
def TicTacToe.make_move (t : TicTacToe) (a : Nat) : TicTacToe :=
  ⟨t.board.set a (some t.player),
   match t.player with
   | Player.X => Player.O
   | Player.O => Player.X⟩

/-- The `lines` array inside `TicTacToe::get_winner`, in source order. -/
def ticLines : List (List Nat) :=
  [[0, 1, 2], [3, 4, 5], [6, 7, 8], [0, 3, 6], [1, 4, 7], [2, 5, 8], [0, 4, 8], [2, 4, 6]]

/-- One iteration of the line check in `TicTacToe::get_winner`: the player
occupying the whole line, if the first cell is occupied and the rest
match it. -/
def lineWinner (b : List (Option Player)) (l : List Nat) : Option Player :=
  match b.getD (l.headD 0) none with
  | some p => if ∀ j ∈ l, b.getD j none = some p then some p else none
  | none => none

/-- Method `TicTacToe::get_winner`: the first winning line in source order maps
to `1` (X) or `-1` (O); a full board with no winning line is a draw `0`;
otherwise no winner yet. -/
def TicTacToe.get_winner (t : TicTacToe) : Option Int :=
  match ticLines.findSome? (fun l => lineWinner t.board l) with
  | some Player.X => some 1
  | some Player.O => some (-1)
  | none => if t.board.all (fun c => c.isSome) then some 0 else none

/-- Method `TicTacToe::is_terminal`: a winner exists or the board is full. -/
def TicTacToe.is_terminal (t : TicTacToe) : Bool :=
  t.get_winner.isSome || t.board.all (fun c => c.isSome)

/-- The tic-tac-toe game packaged for the generic engine (the role of the
`impl GameState for TicTacToe` block). -/
def ticGame : Game TicTacToe :=
  ⟨TicTacToe.get_legal_moves, TicTacToe.make_move, TicTacToe.is_terminal,
   TicTacToe.get_winner⟩

instance : Inhabited TicTacToe := ⟨⟨List.replicate 9 none, Player.X⟩⟩

/-- A one-move game used as concrete input by the witnesses: from `false`
the single legal move `0` leads to the terminal state `true`, won by the
first player. -/
def oneMoveGame : Game Bool :=
  ⟨fun s => if s then [] else [0],
   fun _ _ => true,
   fun s => s,
   fun s => if s then some 1 else none⟩

/-! ### List helper lemmas -/

theorem getD_set {α : Type} (l : List α) (i j : Nat) (x d : α) :
    (l.set i x).getD j d = if j = i ∧ j < l.length then x else l.getD j d := by
  induction l generalizing i j with
  | nil => simp [List.set]
  | cons a as ih =>
    cases i with
    | zero =>
      cases j with
      | zero => simp
      | succ j => simp
    | succ i =>
      cases j with
      | zero => simp [Nat.succ_ne_zero]
      | succ j =>
        simp only [List.set, List.getD_cons_succ, ih, List.length_cons]
        have : (j = i ∧ j < as.length) ↔ (j + 1 = i + 1 ∧ j + 1 < as.length + 1) := by omega
        rw [if_congr this rfl rfl]

theorem getD_append {α : Type} (l₁ l₂ : List α) (j : Nat) (d : α) :
    (l₁ ++ l₂).getD j d = if j < l₁.length then l₁.getD j d else l₂.getD (j - l₁.length) d := by
  induction l₁ generalizing j with
  | nil => simp
  | cons a as ih =>
    cases j with
    | zero => simp
    | succ j =>
      simp only [List.cons_append, List.getD_cons_succ, ih, List.length_cons]
      have : (j < as.length) ↔ (j + 1 < as.length + 1) := by omega
      rw [if_congr this rfl rfl, Nat.add_sub_add_right]

theorem getD_length_oob {α : Type} (l : List α) (j : Nat) (d : α) (h : l.length ≤ j) :
    l.getD j d = d := by
  induction l generalizing j with
  | nil => simp
  | cons a as ih =>
    cases j with
    | zero => simp at h
    | succ j =>
      simp only [List.getD_cons_succ]
      exact ih j (by simpa using Nat.le_of_succ_le_succ h)

/-! ### maxBy lemmas -/

theorem cmpLin_eq_lt_iff {β : Type} [LinearOrder β] (x y : β) :
    cmpLin x y = Ordering.lt ↔ x < y := by
  unfold cmpLin
  by_cases h : x < y
  · simp [h]
  · by_cases h2 : x = y <;> simp [h, h2]

theorem maxBy_foldl_some {α : Type} (cmp : α → α → Ordering) (l : List α) (m₀ : α) :
    ∃ m, l.foldl
      (fun acc x =>
        match acc with
        | none => some x
        | some m => if cmp x m = Ordering.lt then some m else some x)
      (some m₀) = some m := by
  induction l generalizing m₀ with
  | nil => exact ⟨m₀, rfl⟩
  | cons a as ih =>
    simp only [List.foldl_cons]
    by_cases h : cmp a m₀ = Ordering.lt
    · simpa [h] using ih m₀
    · simpa [h] using ih a

theorem maxBy_isSome {α : Type} (cmp : α → α → Ordering) (l : List α) (h : l ≠ []) :
    ∃ m, maxBy cmp l = some m := by
  cases l with
  | nil => exact absurd rfl h
  | cons a as =>
    unfold maxBy
    simpa using maxBy_foldl_some cmp as a

theorem maxBy_foldl_spec {α β : Type} [LinearOrder β] (f : α → β) (l : List α) (m₀ m : α)
    (h : l.foldl
      (fun acc x =>
        match acc with
        | none => some x
        | some mm => if cmpLin (f x) (f mm) = Ordering.lt then some mm else some x)
      (some m₀) = some m) :
    (m = m₀ ∨ m ∈ l) ∧ f m₀ ≤ f m ∧ ∀ x ∈ l, f x ≤ f m := by
  induction l generalizing m₀ with
  | nil =>
    simp only [List.foldl_nil, Option.some.injEq] at h
    subst h
    exact ⟨Or.inl rfl, le_refl _, by simp⟩
  | cons a as ih =>
    simp only [List.foldl_cons] at h
    by_cases hc : cmpLin (f a) (f m₀) = Ordering.lt
    · rw [if_pos hc] at h
      obtain ⟨hm, hle, hall⟩ := ih m₀ h
      have ha : f a < f m₀ := (cmpLin_eq_lt_iff _ _).1 hc
      refine ⟨?_, hle, ?_⟩
      · rcases hm with h1 | h1
        · exact Or.inl h1
        · exact Or.inr (List.mem_cons_of_mem _ h1)
      · intro x hx
        rcases List.mem_cons.1 hx with h1 | h1
        · exact h1 ▸ le_trans (le_of_lt ha) hle
        · exact hall x h1
    · rw [if_neg hc] at h
      obtain ⟨hm, hle, hall⟩ := ih a h
      have ha : f m₀ ≤ f a := by
        by_contra hlt
        exact hc ((cmpLin_eq_lt_iff _ _).2 (lt_of_not_le hlt))
      refine ⟨?_, le_trans ha hle, ?_⟩
      · rcases hm with h1 | h1
        · exact Or.inr (h1 ▸ List.mem_cons_self a as)
        · exact Or.inr (List.mem_cons_of_mem _ h1)
      · intro x hx
        rcases List.mem_cons.1 hx with h1 | h1
        · exact h1 ▸ hle
        · exact hall x h1

/-- A `maxBy` under the comparator `cmpLin (f _) (f _)` yields a member of
the list that maximizes `f`. -/
theorem maxBy_spec {α β : Type} [LinearOrder β] (f : α → β) (l : List α) (m : α)
    (h : maxBy (fun a b => cmpLin (f a) (f b)) l = some m) :
    m ∈ l ∧ ∀ x ∈ l, f x ≤ f m := by
  cases l with
  | nil => simp [maxBy] at h
  | cons a as =>
    unfold maxBy at h
    simp only [List.foldl_cons] at h
    obtain ⟨hm, _, hall⟩ := maxBy_foldl_spec f as a m h
    refine ⟨?_, ?_⟩
    · rcases hm with h1 | h1
      · exact h1 ▸ List.mem_cons_self a as
      · exact List.mem_cons_of_mem _ h1
    · intro x hx
      rcases List.mem_cons.1 hx with h1 | h1
      · exact h1 ▸ (maxBy_foldl_spec f as a m h).2.1
      · exact hall x h1

/-! ### Unfolding and branch lemmas for the engine operations -/

/-- The fuel of `backpropAux` is irrelevant as long as it is at least the
starting index (the recursion only ever moves to strictly smaller
indices). -/
theorem backpropAux_irrel {σ : Type} [Inhabited σ] :
    ∀ (fuel : Nat) (t : MCTS σ) (i : Nat) (r : ℚ), i ≤ fuel →
      t.backpropAux fuel i r = t.backpropAux i i r := by
  intro fuel
  induction fuel using Nat.strong_induction_on with
  | _ fuel ih =>
    intro t i r hle
    match fuel, i with
    | 0, 0 => rfl
    | fuel + 1, 0 =>
      show (match (t.nodes.getD 0 default).parent with
        | none => bpOne t 0 r
        | some p => if p < 0 then (bpOne t 0 r).backpropAux fuel p r else bpOne t 0 r) =
        bpOne t 0 r
      cases (t.nodes.getD 0 default).parent with
      | none => rfl
      | some p =>
        dsimp only
        rw [if_neg (by omega)]
    | fuel + 1, j + 1 =>
      show (match (t.nodes.getD (j + 1) default).parent with
        | none => bpOne t (j + 1) r
        | some p =>
          if p < j + 1 then (bpOne t (j + 1) r).backpropAux fuel p r
          else bpOne t (j + 1) r) =
        (match (t.nodes.getD (j + 1) default).parent with
        | none => bpOne t (j + 1) r
        | some p =>
          if p < j + 1 then (bpOne t (j + 1) r).backpropAux j p r
          else bpOne t (j + 1) r)
      cases (t.nodes.getD (j + 1) default).parent with
      | none => rfl
      | some p =>
        dsimp only
        by_cases hp : p < j + 1
        · rw [if_pos hp, if_pos hp,
            ih fuel (by omega) (bpOne t (j + 1) r) p r (by omega),
            ih j (by omega) (bpOne t (j + 1) r) p r (by omega)]
        · rw [if_neg hp, if_neg hp]

theorem backpropagate_eq {σ : Type} [Inhabited σ] (t : MCTS σ) (i : Nat) (r : ℚ) :
    t.backpropagate i r =
      (match (t.nodes.getD i default).parent with
       | none => bpOne t i r
       | some p => if p < i then (bpOne t i r).backpropagate p r else bpOne t i r) := by
  unfold MCTS.backpropagate
  match i with
  | 0 =>
    show bpOne t 0 r = _
    cases (t.nodes.getD 0 default).parent with
    | none => rfl
    | some p =>
      dsimp only
      rw [if_neg (by omega)]
  | j + 1 =>
    show (match (t.nodes.getD (j + 1) default).parent with
      | none => bpOne t (j + 1) r
      | some p =>
        if p < j + 1 then (bpOne t (j + 1) r).backpropAux j p r
        else bpOne t (j + 1) r) = _
    cases (t.nodes.getD (j + 1) default).parent with
    | none => rfl
    | some p =>
      dsimp only
      by_cases hp : p < j + 1
      · rw [if_pos hp, if_pos hp, backpropAux_irrel j (bpOne t (j + 1) r) p r (by omega)]
      · rw [if_neg hp, if_neg hp]

theorem parentChain_eq {σ : Type} [Inhabited σ] (t : MCTS σ) (i : Nat) :
    parentChain t i =
      (match (t.nodes.getD i default).parent with
       | none => [i]
       | some p => if p < i then i :: parentChain t p else [i]) := by
  rw [parentChain]
  rfl

theorem bpOne_getD {σ : Type} [Inhabited σ] (t : MCTS σ) (i r : _) (j : Nat) :
    (bpOne t i r).nodes.getD j default =
      (if j = i ∧ j < t.nodes.length then
        { t.nodes.getD j default with
          visits := (t.nodes.getD j default).visits + 1,
          wins := (t.nodes.getD j default).wins + r }
      else t.nodes.getD j default) := by
  unfold bpOne
  simp only
  rw [getD_set]
  by_cases h : j = i ∧ j < t.nodes.length
  · rw [if_pos h, if_pos h]
    obtain ⟨h1, _⟩ := h
    subst h1
    rfl
  · rw [if_neg h, if_neg h]

theorem bpOne_length {σ : Type} [Inhabited σ] (t : MCTS σ) (i : Nat) (r : ℚ) :
    (bpOne t i r).nodes.length = t.nodes.length := by
  unfold bpOne
  simp

theorem bpOne_root {σ : Type} [Inhabited σ] (t : MCTS σ) (i : Nat) (r : ℚ) :
    (bpOne t i r).root = t.root := rfl

theorem bpOne_parent {σ : Type} [Inhabited σ] (t : MCTS σ) (i r : _) (j : Nat) :
    ((bpOne t i r).nodes.getD j default).parent = (t.nodes.getD j default).parent := by
  rw [bpOne_getD]
  by_cases h : j = i ∧ j < t.nodes.length
  · rw [if_pos h]
  · rw [if_neg h]

theorem parentChain_bpOne {σ : Type} [Inhabited σ] (t : MCTS σ) (i : Nat) (r : ℚ) :
    ∀ j, parentChain (bpOne t i r) j = parentChain t j := by
  intro j
  induction j using Nat.strong_induction_on with
  | _ j ih =>
    rw [parentChain_eq, parentChain_eq (t := t), bpOne_parent]
    cases hp : (t.nodes.getD j default).parent with
    | none => rfl
    | some p =>
      dsimp only
      by_cases h : p < j
      · rw [if_pos h, if_pos h, ih p h]
      · rw [if_neg h, if_neg h]

/-- Every index on the parent chain is at most the starting index. -/
theorem parentChain_le {σ : Type} [Inhabited σ] (t : MCTS σ) :
    ∀ i j, j ∈ parentChain t i → j ≤ i := by
  intro i
  induction i using Nat.strong_induction_on with
  | _ i ih =>
    intro j hj
    rw [parentChain_eq] at hj
    cases hp : (t.nodes.getD i default).parent with
    | none =>
      rw [hp] at hj
      simp at hj
      omega
    | some p =>
      rw [hp] at hj
      dsimp only at hj
      by_cases h : p < i
      · rw [if_pos h] at hj
        rcases List.mem_cons.1 hj with h1 | h1
        · omega
        · exact le_trans (ih p h j h1) (le_of_lt h)
      · rw [if_neg h] at hj
        simp at hj
        omega

/-- Full characterization of `backpropagate`: every in-bounds node on the
parent chain gets one more visit and the reward added to its wins; every
other node is untouched. -/
theorem backpropagate_getD {σ : Type} [Inhabited σ] :
    ∀ (i : Nat) (t : MCTS σ) (r : ℚ) (j : Nat),
      (t.backpropagate i r).nodes.getD j default =
        (if j ∈ parentChain t i ∧ j < t.nodes.length then
          { t.nodes.getD j default with
            visits := (t.nodes.getD j default).visits + 1,
            wins := (t.nodes.getD j default).wins + r }
        else t.nodes.getD j default) := by
  intro i
  induction i using Nat.strong_induction_on with
  | _ i ih =>
    intro t r j
    rw [backpropagate_eq, parentChain_eq]
    cases hp : (t.nodes.getD i default).parent with
    | none =>
      dsimp only
      rw [bpOne_getD]
      by_cases h : j = i ∧ j < t.nodes.length
      · rw [if_pos h, if_pos (by simpa using h)]
      · rw [if_neg h, if_neg (by simpa using h)]
    | some p =>
      dsimp only
      by_cases h : p < i
      · simp only [if_pos h]
        rw [ih p h (bpOne t i r) r j, parentChain_bpOne, bpOne_length, bpOne_getD]
        by_cases hji : j = i ∧ j < t.nodes.length
        · obtain ⟨h1, h2⟩ := hji
          subst h1
          have hnm : j ∉ parentChain t p := fun hm =>
            absurd (parentChain_le t p j hm) (by omega)
          rw [if_neg (fun hc => hnm hc.1), if_pos ⟨rfl, h2⟩,
            if_pos ⟨List.mem_cons_self _ _, h2⟩]
        · rw [if_neg hji]
          by_cases hm : j ∈ parentChain t p ∧ j < t.nodes.length
          · rw [if_pos hm, if_pos ⟨List.mem_cons_of_mem _ hm.1, hm.2⟩]
          · rw [if_neg hm]
            have hnot : ¬(j ∈ i :: parentChain t p ∧ j < t.nodes.length) := by
              intro hcon
              rcases List.mem_cons.1 hcon.1 with h1 | h1
              · exact hji ⟨h1, hcon.2⟩
              · exact hm ⟨h1, hcon.2⟩
            rw [if_neg hnot]
      · simp only [if_neg h]
        rw [bpOne_getD]
        by_cases hji : j = i ∧ j < t.nodes.length
        · rw [if_pos hji, if_pos (by simpa using hji)]
        · rw [if_neg hji, if_neg (by simpa using hji)]

theorem backpropagate_length {σ : Type} [Inhabited σ] :
    ∀ (i : Nat) (t : MCTS σ) (r : ℚ),
      (t.backpropagate i r).nodes.length = t.nodes.length := by
  intro i
  induction i using Nat.strong_induction_on with
  | _ i ih =>
    intro t r
    rw [backpropagate_eq]
    cases hp : (t.nodes.getD i default).parent with
    | none => exact bpOne_length t i r
    | some p =>
      dsimp only
      by_cases h : p < i
      · rw [if_pos h, ih p h (bpOne t i r) r, bpOne_length]
      · rw [if_neg h]
        exact bpOne_length t i r

theorem backpropagate_root {σ : Type} [Inhabited σ] :
    ∀ (i : Nat) (t : MCTS σ) (r : ℚ), (t.backpropagate i r).root = t.root := by
  intro i
  induction i using Nat.strong_induction_on with
  | _ i ih =>
    intro t r
    rw [backpropagate_eq]
    cases hp : (t.nodes.getD i default).parent with
    | none => rfl
    | some p =>
      dsimp only
      by_cases h : p < i
      · rw [if_pos h, ih p h (bpOne t i r) r]
        rfl
      · rw [if_neg h]
        rfl

/-- An index whose node has untried actions is in bounds (out-of-bounds
reads give the default node, which has none). -/
theorem untried_lt_length {σ : Type} [Inhabited σ] (t : MCTS σ) (i : Nat)
    (h : (t.nodes.getD i default).untried_actions.isEmpty = false) : i < t.nodes.length := by
  by_contra hge
  rw [getD_length_oob t.nodes i default (by omega)] at h
  simp [default] at h

/-- The untried-actions branch of `expand`, as one equation. -/
theorem expand_pos {σ : Type} [Inhabited σ] (t : MCTS σ) (g : Game σ) (i : Nat)
    (h : (t.nodes.getD i default).untried_actions.isEmpty = false) :
    t.expand g i =
      (⟨t.root,
        (t.nodes.set i
          { t.nodes.getD i default with
            untried_actions := (t.nodes.getD i default).untried_actions.dropLast,
            children := (t.nodes.getD i default).children ++ [t.nodes.length] }) ++
          [⟨g.make_move (t.nodes.getD i default).state
              ((t.nodes.getD i default).untried_actions.getLastD 0),
            some i, [], 0, 0,
            g.get_legal_moves
              (g.make_move (t.nodes.getD i default).state
                ((t.nodes.getD i default).untried_actions.getLastD 0)),
            some ((t.nodes.getD i default).untried_actions.getLastD 0)⟩]⟩,
       t.nodes.length) := by
  unfold MCTS.expand
  simp only [h, Bool.false_eq_true, if_false]

/-- The no-untried-actions branch of `expand`, as one equation. -/
theorem expand_empty {σ : Type} [Inhabited σ] (t : MCTS σ) (g : Game σ) (i : Nat)
    (h : (t.nodes.getD i default).untried_actions.isEmpty = true) :
    t.expand g i =
      (match maxBy
          (fun a b => cmpLin (uctVal t i a) (uctVal t i b))
          ((t.nodes.getD i default).children) with
      | some c => (t, c)
      | none => (t, i)) := by
  unfold MCTS.expand
  simp only [h, if_true]

/-- In the no-untried-actions branch the arena is unchanged. -/
theorem expand_empty_fst {σ : Type} [Inhabited σ] (t : MCTS σ) (g : Game σ) (i : Nat)
    (h : (t.nodes.getD i default).untried_actions.isEmpty = true) :
    (t.expand g i).1 = t := by
  rw [expand_empty t g i h]
  cases maxBy (fun a b => cmpLin (uctVal t i a) (uctVal t i b))
      ((t.nodes.getD i default).children) with
  | none => rfl
  | some c => rfl

/-- If `expand` hands back the index it was given, the arena is unchanged
(the fresh index of the creating branch is the arena size, never the
in-bounds argument). -/
theorem expand_break {σ : Type} [Inhabited σ] (t : MCTS σ) (g : Game σ) (i : Nat)
    (h : (t.expand g i).2 = i) : (t.expand g i).1 = t := by
  cases he : (t.nodes.getD i default).untried_actions.isEmpty with
  | true => exact expand_empty_fst t g i he
  | false =>
    exfalso
    have hlt := untried_lt_length t i he
    rw [expand_pos t g i he] at h
    simp only at h
    omega

theorem expand_pos_length {σ : Type} [Inhabited σ] (t : MCTS σ) (g : Game σ) (i : Nat)
    (h : (t.nodes.getD i default).untried_actions.isEmpty = false) :
    (t.expand g i).1.nodes.length = t.nodes.length + 1 := by
  rw [expand_pos t g i h]
  simp

theorem expand_root {σ : Type} [Inhabited σ] (t : MCTS σ) (g : Game σ) (i : Nat) :
    (t.expand g i).1.root = t.root := by
  cases he : (t.nodes.getD i default).untried_actions.isEmpty with
  | true => rw [expand_empty_fst t g i he]
  | false => rw [expand_pos t g i he]

/-- Node-level characterization of the creating branch of `expand`. -/
theorem expand_pos_getD {σ : Type} [Inhabited σ] (t : MCTS σ) (g : Game σ) (i : Nat)
    (h : (t.nodes.getD i default).untried_actions.isEmpty = false) (j : Nat) :
    (t.expand g i).1.nodes.getD j default =
      (if j = i then
        { t.nodes.getD i default with
          untried_actions := (t.nodes.getD i default).untried_actions.dropLast,
          children := (t.nodes.getD i default).children ++ [t.nodes.length] }
      else if j = t.nodes.length then
        ⟨g.make_move (t.nodes.getD i default).state
            ((t.nodes.getD i default).untried_actions.getLastD 0),
          some i, [], 0, 0,
          g.get_legal_moves
            (g.make_move (t.nodes.getD i default).state
              ((t.nodes.getD i default).untried_actions.getLastD 0)),
          some ((t.nodes.getD i default).untried_actions.getLastD 0)⟩
      else t.nodes.getD j default) := by
  have hlt := untried_lt_length t i h
  rw [expand_pos t g i h]
  simp only
  rw [getD_append, List.length_set, getD_set]
  by_cases hji : j = i
  · subst hji
    rw [if_pos hlt, if_pos ⟨rfl, hlt⟩, if_pos rfl]
  · rw [if_neg hji]
    by_cases hjl : j < t.nodes.length
    · rw [if_pos hjl, if_neg (fun hc => hji hc.1), if_neg (by omega)]
    · rw [if_neg hjl]
      by_cases hje : j = t.nodes.length
      · subst hje
        rw [if_pos rfl]
        simp
      · rw [if_neg hje]
        rw [getD_length_oob t.nodes j default (by omega)]
        rw [getD_length_oob _ (j - t.nodes.length) default (by simp; omega)]

/-! ### select and searchLoop unfolding lemmas -/

theorem select_untried {σ : Type} [Inhabited σ] (t : MCTS σ) (fuel i : Nat)
    (h : (t.nodes.getD i default).untried_actions.isEmpty = false) :
    t.select (fuel + 1) i = i := by
  conv_lhs => rw [MCTS.select]
  rw [h]
  simp

theorem select_empty {σ : Type} [Inhabited σ] (t : MCTS σ) (fuel i : Nat)
    (h : (t.nodes.getD i default).untried_actions.isEmpty = true) :
    t.select (fuel + 1) i =
      (match maxBy
          (fun a b => cmpLin (uctVal t i a) (uctVal t i b))
          ((t.nodes.getD i default).children) with
      | some c => t.select fuel c
      | none => i) := by
  conv_lhs => rw [MCTS.select]
  rw [h]
  simp

theorem searchLoop_zero {σ : Type} [Inhabited σ] (g : Game σ) (rng : Nat → Nat → Nat)
    (sf : Nat) (t : MCTS σ) : searchLoop g rng sf 0 t = some (t, 0) := rfl

theorem searchLoop_succ {σ : Type} [Inhabited σ] (g : Game σ) (rng : Nat → Nat → Nat)
    (sf k : Nat) (t : MCTS σ) :
    searchLoop g rng sf (k + 1) t =
      (let sel := t.select t.nodes.length t.root
       let p := t.expand g sel
       if p.2 = sel then some (p.1, 0)
       else
         match p.1.simulate g (rng k) sf p.2 with
         | none => none
         | some r =>
           Option.map (fun q => (q.1, q.2 + 1))
             (searchLoop g rng sf k (p.1.backpropagate p.2 r))) := rfl

/-! ### Structural invariants of reachable arenas -/

/-- Structural well-formedness of an arena: root index 0, at least one
node, parents appended before their children (and only the root
parentless or actionless), children in bounds and strictly after their
parent. -/
def ArenaInv {σ : Type} [Inhabited σ] (t : MCTS σ) : Prop :=
  t.root = 0 ∧ 0 < t.nodes.length ∧
  (∀ j, j < t.nodes.length → ∀ p, (t.nodes.getD j default).parent = some p → p < j) ∧
  (∀ j, j < t.nodes.length → ((t.nodes.getD j default).parent = none ↔ j = 0)) ∧
  (∀ j, j < t.nodes.length → ((t.nodes.getD j default).last_action = none ↔ j = 0)) ∧
  (∀ j, j < t.nodes.length →
    ∀ c ∈ (t.nodes.getD j default).children, j < c ∧ c < t.nodes.length)

theorem ArenaInv_new {σ : Type} [Inhabited σ] (g : Game σ) (s : σ) :
    ArenaInv (MCTS.new g s) := by
  unfold ArenaInv MCTS.new
  refine ⟨rfl, by simp, ?_, ?_, ?_, ?_⟩ <;> intro j hj <;> simp at hj <;> subst hj <;> simp

theorem ArenaInv_backpropagate {σ : Type} [Inhabited σ] (t : MCTS σ) (i : Nat) (r : ℚ)
    (h : ArenaInv t) : ArenaInv (t.backpropagate i r) := by
  obtain ⟨h0, h1, h2, h3, h4, h5⟩ := h
  have hfield : ∀ j, ((t.backpropagate i r).nodes.getD j default).parent =
      (t.nodes.getD j default).parent ∧
      ((t.backpropagate i r).nodes.getD j default).last_action =
      (t.nodes.getD j default).last_action ∧
      ((t.backpropagate i r).nodes.getD j default).children =
      (t.nodes.getD j default).children := by
    intro j
    rw [backpropagate_getD]
    by_cases hc : j ∈ parentChain t i ∧ j < t.nodes.length
    · rw [if_pos hc]
      exact ⟨rfl, rfl, rfl⟩
    · rw [if_neg hc]
      exact ⟨rfl, rfl, rfl⟩
  refine ⟨by rw [backpropagate_root]; exact h0,
    by rw [backpropagate_length]; exact h1, ?_, ?_, ?_, ?_⟩ <;>
    intro j hj <;> rw [backpropagate_length] at hj
  · rw [(hfield j).1]
    exact h2 j hj
  · rw [(hfield j).1]
    exact h3 j hj
  · rw [(hfield j).2.1]
    exact h4 j hj
  · rw [(hfield j).2.2, backpropagate_length]
    exact h5 j hj

theorem ArenaInv_expand {σ : Type} [Inhabited σ] (t : MCTS σ) (g : Game σ) (i : Nat)
    (h : ArenaInv t) : ArenaInv (t.expand g i).1 := by
  cases he : (t.nodes.getD i default).untried_actions.isEmpty with
  | true =>
    rw [expand_empty_fst t g i he]
    exact h
  | false =>
    obtain ⟨h0, h1, h2, h3, h4, h5⟩ := h
    have hlt := untried_lt_length t i he
    have hlen := expand_pos_length t g i he
    refine ⟨by rw [expand_root]; exact h0, by rw [hlen]; omega, ?_, ?_, ?_, ?_⟩ <;>
      intro j hj <;> rw [hlen] at hj <;> rw [expand_pos_getD t g i he j]
    · by_cases hji : j = i
      · subst hji
        rw [if_pos rfl]
        intro p hp
        exact h2 j hlt p hp
      · rw [if_neg hji]
        by_cases hjl : j = t.nodes.length
        · subst hjl
          rw [if_pos rfl]
          intro p hp
          obtain rfl : i = p := Option.some.inj hp
          omega
        · rw [if_neg hjl]
          exact h2 j (by omega)
    · by_cases hji : j = i
      · subst hji
        rw [if_pos rfl]
        exact h3 j hlt
      · rw [if_neg hji]
        by_cases hjl : j = t.nodes.length
        · subst hjl
          rw [if_pos rfl]
          constructor
          · intro hn
            exact absurd hn (by simp)
          · intro h0'
            omega
        · rw [if_neg hjl]
          exact h3 j (by omega)
    · by_cases hji : j = i
      · subst hji
        rw [if_pos rfl]
        exact h4 j hlt
      · rw [if_neg hji]
        by_cases hjl : j = t.nodes.length
        · subst hjl
          rw [if_pos rfl]
          constructor
          · intro hn
            exact absurd hn (by simp)
          · intro h0'
            omega
        · rw [if_neg hjl]
          exact h4 j (by omega)
    · by_cases hji : j = i
      · subst hji
        rw [if_pos rfl]
        intro c hc
        rcases List.mem_append.1 hc with h1' | h1'
        · have := h5 j hlt c h1'
          omega
        · have : c = t.nodes.length := by simpa using h1'
          omega
      · rw [if_neg hji]
        by_cases hjl : j = t.nodes.length
        · subst hjl
          rw [if_pos rfl]
          intro c hc
          exact absurd hc (by simp)
        · rw [if_neg hjl]
          intro c hc
          have := h5 j (by omega) c hc
          omega

/-- Function `backpropagate` changes only `wins` and `visits`: every other field of
every node is untouched. -/
theorem backpropagate_preserves {σ : Type} [Inhabited σ] (t : MCTS σ) (i : Nat) (r : ℚ)
    (j : Nat) :
    ((t.backpropagate i r).nodes.getD j default).parent = (t.nodes.getD j default).parent ∧
    ((t.backpropagate i r).nodes.getD j default).last_action =
      (t.nodes.getD j default).last_action ∧
    ((t.backpropagate i r).nodes.getD j default).children =
      (t.nodes.getD j default).children ∧
    ((t.backpropagate i r).nodes.getD j default).untried_actions =
      (t.nodes.getD j default).untried_actions ∧
    ((t.backpropagate i r).nodes.getD j default).state = (t.nodes.getD j default).state := by
  rw [backpropagate_getD]
  by_cases hc : j ∈ parentChain t i ∧ j < t.nodes.length
  · rw [if_pos hc]
    exact ⟨rfl, rfl, rfl, rfl, rfl⟩
  · rw [if_neg hc]
    exact ⟨rfl, rfl, rfl, rfl, rfl⟩

theorem mem_parentChain_self {σ : Type} [Inhabited σ] (t : MCTS σ) (i : Nat) :
    i ∈ parentChain t i := by
  rw [parentChain_eq]
  cases (t.nodes.getD i default).parent with
  | none => simp
  | some p =>
    dsimp only
    by_cases h : p < i
    · rw [if_pos h]
      exact List.mem_cons_self _ _
    · rw [if_neg h]
      simp

theorem isEmpty_false_iff {α : Type} (l : List α) : l.isEmpty = false ↔ l ≠ [] := by
  cases l <;> simp

theorem getLastD_mem {α : Type} : ∀ (l : List α) (d : α), l ≠ [] → l.getLastD d ∈ l := by
  intro l
  induction l with
  | nil => intro d h; exact absurd rfl h
  | cons a as ih =>
    intro d _
    rw [List.getLastD_cons]
    by_cases has : as = []
    · subst has
      simp
    · exact List.mem_cons_of_mem _ (ih a has)

/-- The reward invariant `0 ≤ wins ≤ visits` at every in-bounds node. -/
def WinsLE {σ : Type} [Inhabited σ] (t : MCTS σ) : Prop :=
  ∀ j, j < t.nodes.length →
    0 ≤ (t.nodes.getD j default).wins ∧
    (t.nodes.getD j default).wins ≤ ((t.nodes.getD j default).visits : ℚ)

theorem WinsLE_new {σ : Type} [Inhabited σ] (g : Game σ) (s : σ) : WinsLE (MCTS.new g s) := by
  intro j hj
  simp only [MCTS.new, List.length_cons, List.length_nil] at hj
  have : j = 0 := by omega
  subst this
  simp [MCTS.new]

theorem WinsLE_expand {σ : Type} [Inhabited σ] (t : MCTS σ) (g : Game σ) (i : Nat)
    (h : WinsLE t) : WinsLE (t.expand g i).1 := by
  cases he : (t.nodes.getD i default).untried_actions.isEmpty with
  | true =>
    rw [expand_empty_fst t g i he]
    exact h
  | false =>
    intro j hj
    rw [expand_pos_length t g i he] at hj
    rw [expand_pos_getD t g i he j]
    by_cases hji : j = i
    · subst hji
      rw [if_pos rfl]
      exact h j (untried_lt_length t j he)
    · rw [if_neg hji]
      by_cases hjl : j = t.nodes.length
      · subst hjl
        rw [if_pos rfl]
        simp
      · rw [if_neg hjl]
        exact h j (by omega)

theorem WinsLE_backpropagate {σ : Type} [Inhabited σ] (t : MCTS σ) (i : Nat) (r : ℚ)
    (hr0 : 0 ≤ r) (hr1 : r ≤ 1) (h : WinsLE t) : WinsLE (t.backpropagate i r) := by
  intro j hj
  rw [backpropagate_length] at hj
  rw [backpropagate_getD]
  by_cases hc : j ∈ parentChain t i ∧ j < t.nodes.length
  · rw [if_pos hc]
    obtain ⟨hw0, hwv⟩ := h j hj
    constructor
    · exact add_nonneg hw0 hr0
    · push_cast
      linarith
  · rw [if_neg hc]
    exact h j hj

/-- Function `simulate` only ever hands back a reward in `{0, 1/2, 1}`. -/
theorem simulate_range {σ : Type} [Inhabited σ] (t : MCTS σ) (g : Game σ) (rng : Nat → Nat)
    (fuel i : Nat) (r : ℚ) (h : t.simulate g rng fuel i = some r) :
    r = 0 ∨ r = 1 / 2 ∨ r = 1 := by
  unfold MCTS.simulate at h
  cases hro : rollout g rng fuel (t.nodes.getD i default).state with
  | none =>
    rw [hro] at h
    exact absurd h (by simp)
  | some s =>
    rw [hro] at h
    dsimp only at h
    cases hw : g.get_winner s with
    | none =>
      rw [hw] at h
      exact absurd h (by simp)
    | some w =>
      rw [hw] at h
      dsimp only at h
      by_cases h0 : w = 0
      · rw [if_pos h0] at h
        exact Or.inr (Or.inl (Option.some.inj h).symm)
      · rw [if_neg h0] at h
        by_cases h1 : w = 1
        · rw [if_pos h1] at h
          exact Or.inr (Or.inr (Option.some.inj h).symm)
        · rw [if_neg h1] at h
          by_cases h2 : w = -1
          · rw [if_pos h2] at h
            exact Or.inl (Option.some.inj h).symm
          · rw [if_neg h2] at h
            exact absurd h (by simp)

/-- Every non-root node has been visited at least once. -/
def VInv {σ : Type} [Inhabited σ] (t : MCTS σ) : Prop :=
  ∀ j, j < t.nodes.length → j ≠ 0 → 1 ≤ (t.nodes.getD j default).visits

theorem VInv_new {σ : Type} [Inhabited σ] (g : Game σ) (s : σ) : VInv (MCTS.new g s) := by
  intro j hj hj0
  simp only [MCTS.new, List.length_cons, List.length_nil] at hj
  omega

/-- One completed loop iteration (expand at any index, then backpropagate
from the expanded node) preserves the visited-at-least-once invariant,
provided expansion did not fail. -/
theorem VInv_step {σ : Type} [Inhabited σ] (t : MCTS σ) (g : Game σ) (sel : Nat) (r : ℚ)
    (hV : VInv t) (hne : (t.expand g sel).2 ≠ sel) :
    VInv ((t.expand g sel).1.backpropagate (t.expand g sel).2 r) := by
  intro j hj hj0
  rw [backpropagate_length] at hj
  rw [backpropagate_getD]
  by_cases hc : j ∈ parentChain (t.expand g sel).1 (t.expand g sel).2 ∧
      j < (t.expand g sel).1.nodes.length
  · rw [if_pos hc]
    exact Nat.le_add_left 1 _
  · rw [if_neg hc]
    have hje : j ≠ (t.expand g sel).2 := by
      intro hcon
      exact hc ⟨hcon ▸ mem_parentChain_self _ _, hj⟩
    cases he : (t.nodes.getD sel default).untried_actions.isEmpty with
    | true =>
      rw [expand_empty_fst t g sel he] at hj ⊢
      exact hV j hj hj0
    | false =>
      have hsnd : (t.expand g sel).2 = t.nodes.length := by
        rw [expand_pos t g sel he]
      rw [expand_pos_length t g sel he] at hj
      rw [expand_pos_getD t g sel he j]
      by_cases hji : j = sel
      · subst hji
        rw [if_pos rfl]
        exact hV j (untried_lt_length t j he) hj0
      · rw [if_neg hji]
        rw [if_neg (by omega : ¬j = t.nodes.length)]
        exact hV j (by omega) hj0

/-- Arenas reachable from `new` by the mutating engine calls performed in
`get_best_move` (`expand` at any index, `backpropagate` at any index with
a reward that `simulate` can produce); `select` and `simulate` take the
arena by shared reference in the source and mutate nothing. -/
inductive Reach {σ : Type} [Inhabited σ] (g : Game σ) : MCTS σ → Prop
  | base (s : σ) : Reach g (MCTS.new g s)
  | expand_step (t : MCTS σ) (i : Nat) : Reach g t → Reach g (t.expand g i).1
  | backprop_step (t : MCTS σ) (i : Nat) (r : ℚ) :
      Reach g t → (r = 0 ∨ r = 1 / 2 ∨ r = 1) → Reach g (t.backpropagate i r)

theorem Reach_winsLE {σ : Type} [Inhabited σ] (g : Game σ) (t : MCTS σ)
    (h : Reach g t) : WinsLE t := by
  induction h with
  | base s => exact WinsLE_new g s
  | expand_step t i _ ih => exact WinsLE_expand t g i ih
  | backprop_step t i r _ hr ih =>
    refine WinsLE_backpropagate t i r ?_ ?_ ih
    · rcases hr with h1 | h1 | h1 <;> rw [h1] <;> norm_num
    · rcases hr with h1 | h1 | h1 <;> rw [h1] <;> norm_num

/-- Arena states at the head of the `get_best_move` loop: the initial
arena, and the result of any completed iteration (select from the root,
expand, a successful simulate, backpropagate) from such a state. -/
inductive LoopReach {σ : Type} [Inhabited σ] (g : Game σ) : MCTS σ → Prop
  | base (s : σ) : LoopReach g (MCTS.new g s)
  | step (t : MCTS σ) (rng : Nat → Nat) (sf : Nat) (r : ℚ) :
      LoopReach g t →
      (t.expand g (t.select t.nodes.length t.root)).2 ≠ t.select t.nodes.length t.root →
      (t.expand g (t.select t.nodes.length t.root)).1.simulate g rng sf
        (t.expand g (t.select t.nodes.length t.root)).2 = some r →
      LoopReach g ((t.expand g (t.select t.nodes.length t.root)).1.backpropagate
        (t.expand g (t.select t.nodes.length t.root)).2 r)

theorem LoopReach_inv {σ : Type} [Inhabited σ] (g : Game σ) (t : MCTS σ)
    (h : LoopReach g t) : ArenaInv t ∧ VInv t := by
  induction h with
  | base s => exact ⟨ArenaInv_new g s, VInv_new g s⟩
  | step t rng sf r _ hne _ ih =>
    exact ⟨ArenaInv_backpropagate _ _ _ (ArenaInv_expand t g _ ih.1),
      VInv_step t g _ r ih.2 hne⟩

/-- Relative to the initial state `s`: every untried action of the root
and every recorded action of a root child is a legal move of `s`. -/
def RootActs {σ : Type} [Inhabited σ] (g : Game σ) (s : σ) (t : MCTS σ) : Prop :=
  (∀ a ∈ (t.nodes.getD 0 default).untried_actions, a ∈ g.get_legal_moves s) ∧
  (∀ c ∈ (t.nodes.getD 0 default).children, ∀ a,
    (t.nodes.getD c default).last_action = some a → a ∈ g.get_legal_moves s)

theorem RootActs_new {σ : Type} [Inhabited σ] (g : Game σ) (s : σ) :
    RootActs g s (MCTS.new g s) := by
  constructor
  · intro a ha
    simpa [MCTS.new] using ha
  · intro c hc
    exact absurd hc (by simp [MCTS.new])

theorem RootActs_backpropagate {σ : Type} [Inhabited σ] (g : Game σ) (s : σ) (t : MCTS σ)
    (i : Nat) (r : ℚ) (h : RootActs g s t) : RootActs g s (t.backpropagate i r) := by
  constructor
  · intro a ha
    rw [(backpropagate_preserves t i r 0).2.2.2.1] at ha
    exact h.1 a ha
  · intro c hc a ha
    rw [(backpropagate_preserves t i r 0).2.2.1] at hc
    rw [(backpropagate_preserves t i r c).2.1] at ha
    exact h.2 c hc a ha

theorem RootActs_expand {σ : Type} [Inhabited σ] (g : Game σ) (s : σ) (t : MCTS σ) (i : Nat)
    (hI : ArenaInv t) (h : RootActs g s t) : RootActs g s (t.expand g i).1 := by
  cases he : (t.nodes.getD i default).untried_actions.isEmpty with
  | true =>
    rw [expand_empty_fst t g i he]
    exact h
  | false =>
    obtain ⟨_, hpos, _, _, _, hch⟩ := hI
    have hlt := untried_lt_length t i he
    have hne : (t.nodes.getD i default).untried_actions ≠ [] := (isEmpty_false_iff _).1 he
    by_cases hi0 : i = 0
    · subst hi0
      constructor
      · intro a ha
        rw [expand_pos_getD t g 0 he 0, if_pos rfl] at ha
        exact h.1 a ((List.dropLast_sublist _).subset ha)
      · intro c hc a ha
        rw [expand_pos_getD t g 0 he 0, if_pos rfl] at hc
        rcases List.mem_append.1 hc with hold | hnew
        · obtain ⟨hc0, hcl⟩ := hch 0 hpos c hold
          rw [expand_pos_getD t g 0 he c, if_neg (by omega), if_neg (by omega)] at ha
          exact h.2 c hold a ha
        · have hcl : c = t.nodes.length := by simpa using hnew
          rw [expand_pos_getD t g 0 he c, if_neg (by omega), if_pos hcl] at ha
          have : a = (t.nodes.getD 0 default).untried_actions.getLastD 0 :=
            (Option.some.inj ha).symm
          subst this
          exact h.1 _ (getLastD_mem _ _ hne)
    · constructor
      · intro a ha
        rw [expand_pos_getD t g i he 0, if_neg (fun hc => hi0 hc.symm),
          if_neg (by omega)] at ha
        exact h.1 a ha
      · intro c hc a ha
        rw [expand_pos_getD t g i he 0, if_neg (fun hcon => hi0 hcon.symm),
          if_neg (by omega)] at hc
        obtain ⟨hc0, hcl⟩ := hch 0 hpos c hc
        rw [expand_pos_getD t g i he c] at ha
        by_cases hci : c = i
        · rw [if_pos hci] at ha
          exact h.2 c hc a (by rw [hci]; exact ha)
        · rw [if_neg hci, if_neg (by omega)] at ha
          exact h.2 c hc a ha

/-- Any property preserved by `expand` and `backpropagate` is preserved by
the whole search loop. -/
theorem searchLoop_inv {σ : Type} [Inhabited σ] (g : Game σ) (rng : Nat → Nat → Nat)
    (sf : Nat) {P : MCTS σ → Prop}
    (hexp : ∀ t i, P t → P (t.expand g i).1)
    (hbp : ∀ (t : MCTS σ) i r, P t → P (t.backpropagate i r)) :
    ∀ (k : Nat) (t t' : MCTS σ) (n : Nat),
      searchLoop g rng sf k t = some (t', n) → P t → P t' := by
  intro k
  induction k with
  | zero =>
    intro t t' n hs hP
    rw [searchLoop_zero] at hs
    obtain ⟨h1, _⟩ := Prod.mk.injEq .. ▸ Option.some.inj hs
    exact h1 ▸ hP
  | succ k ih =>
    intro t t' n hs hP
    rw [searchLoop_succ] at hs
    dsimp only at hs
    by_cases hbrk : (t.expand g (t.select t.nodes.length t.root)).2 =
        t.select t.nodes.length t.root
    · rw [if_pos hbrk] at hs
      have h1 := (Prod.mk.injEq .. ▸ Option.some.inj hs).1
      exact h1 ▸ hexp t _ hP
    · rw [if_neg hbrk] at hs
      cases hsim : (t.expand g (t.select t.nodes.length t.root)).1.simulate g (rng k) sf
          (t.expand g (t.select t.nodes.length t.root)).2 with
      | none =>
        rw [hsim] at hs
        exact absurd hs (by simp)
      | some r =>
        rw [hsim] at hs
        dsimp only at hs
        cases hrec : searchLoop g rng sf k
            ((t.expand g (t.select t.nodes.length t.root)).1.backpropagate
              (t.expand g (t.select t.nodes.length t.root)).2 r) with
        | none =>
          rw [hrec] at hs
          exact absurd hs (by simp)
        | some q =>
          rw [hrec] at hs
          simp only [Option.map_some'] at hs
          have h1 := (Prod.mk.injEq .. ▸ Option.some.inj hs).1
          have hq := ih ((t.expand g (t.select t.nodes.length t.root)).1.backpropagate
              (t.expand g (t.select t.nodes.length t.root)).2 r) q.1 q.2
            (by rw [hrec]) (hbp _ _ _ (hexp t _ hP))
          exact h1 ▸ hq

/-! ### Claim theorems -/

/-- Claim C2: for every arena and node index, `select` returns the node
itself when it has untried actions; otherwise, with children, it recurses
into a child maximizing the UCT score
`wins/visits + sqrt(2*ln(visits(node))/visits(child))`; with no children
it returns the node itself. -/
theorem C2_select_uct {σ : Type} [Inhabited σ] (t : MCTS σ) (fuel i : Nat) :
    ((t.nodes.getD i default).untried_actions ≠ [] → t.select (fuel + 1) i = i) ∧
    ((t.nodes.getD i default).untried_actions = [] →
      (t.nodes.getD i default).children = [] → t.select (fuel + 1) i = i) ∧
    ((t.nodes.getD i default).untried_actions = [] →
      (t.nodes.getD i default).children ≠ [] →
      ∃ c ∈ (t.nodes.getD i default).children,
        t.select (fuel + 1) i = t.select fuel c ∧
        ∀ d ∈ (t.nodes.getD i default).children, uctVal t i d ≤ uctVal t i c) := by
  refine ⟨?_, ?_, ?_⟩
  · intro h
    exact select_untried t fuel i ((isEmpty_false_iff _).2 h)
  · intro h1 h2
    rw [select_empty t fuel i (by rw [h1]; rfl), h2]
    rfl
  · intro h1 h2
    rw [select_empty t fuel i (by rw [h1]; rfl)]
    obtain ⟨c, hc⟩ := maxBy_isSome
      (fun a b => cmpLin (uctVal t i a) (uctVal t i b))
      ((t.nodes.getD i default).children) h2
    obtain ⟨hmem, hmax⟩ := maxBy_spec (fun x => uctVal t i x) _ c hc
    rw [hc]
    exact ⟨c, hmem, rfl, hmax⟩

/-- The concrete arena used by the C2 witness: a root with one untried
action. -/
def w2arena : MCTS Bool := ⟨0, [⟨false, none, [], 0, 0, [5], none⟩]⟩

theorem C2_witness :
    (w2arena.nodes.getD 0 default).untried_actions ≠ [] ∧ w2arena.select 1 0 = 0 :=
  ⟨by decide, (C2_select_uct w2arena 0 0).1 (by decide)⟩

/-- Claim C3: on a node with untried actions, `expand` pops the last
untried action, applies it to a copy of the node's state, appends exactly
one zero-count node (parent the expanded node, untried actions the legal
moves of the new state, last action the applied action), records the new
index in the node's children, and returns the new index; the arena of
`new` has size 1 and each creating `expand` call adds exactly one node. -/
theorem C3_expand_creates_node {σ : Type} [Inhabited σ] (g : Game σ) (s : σ) (t : MCTS σ)
    (i : Nat) :
    (MCTS.new g s).nodes.length = 1 ∧
    ((t.nodes.getD i default).untried_actions ≠ [] →
      t.expand g i =
        (⟨t.root,
          (t.nodes.set i
            { t.nodes.getD i default with
              untried_actions := (t.nodes.getD i default).untried_actions.dropLast,
              children := (t.nodes.getD i default).children ++ [t.nodes.length] }) ++
            [⟨g.make_move (t.nodes.getD i default).state
                ((t.nodes.getD i default).untried_actions.getLastD 0),
              some i, [], 0, 0,
              g.get_legal_moves
                (g.make_move (t.nodes.getD i default).state
                  ((t.nodes.getD i default).untried_actions.getLastD 0)),
              some ((t.nodes.getD i default).untried_actions.getLastD 0)⟩]⟩,
         t.nodes.length) ∧
      (t.expand g i).1.nodes.length = t.nodes.length + 1) := by
  refine ⟨by simp [MCTS.new], ?_⟩
  intro h
  have he := (isEmpty_false_iff _).2 h
  exact ⟨expand_pos t g i he, expand_pos_length t g i he⟩

theorem C3_witness :
    ((MCTS.new oneMoveGame false).nodes.getD 0 default).untried_actions ≠ [] ∧
    ((MCTS.new oneMoveGame false).expand oneMoveGame 0).1.nodes.length =
      (MCTS.new oneMoveGame false).nodes.length + 1 :=
  ⟨by decide,
   ((C3_expand_creates_node oneMoveGame false (MCTS.new oneMoveGame false) 0).2
     (by decide)).2⟩

/-- Claim C7: `expand` on a node with no untried actions and no children
returns the same index with the arena fully unchanged — the signal that no
expansion is possible. -/
theorem C7_expand_exhausted {σ : Type} [Inhabited σ] (t : MCTS σ) (g : Game σ) (i : Nat)
    (h1 : (t.nodes.getD i default).untried_actions = [])
    (h2 : (t.nodes.getD i default).children = []) :
    t.expand g i = (t, i) := by
  rw [expand_empty t g i (by rw [h1]; rfl), h2]
  rfl

/-- The concrete arena used by the C7 witness: a single exhausted node. -/
def w7arena : MCTS Bool := ⟨0, [⟨true, none, [], 0, 0, [], none⟩]⟩

theorem C7_witness :
    (w7arena.nodes.getD 0 default).untried_actions = [] ∧
    (w7arena.nodes.getD 0 default).children = [] ∧
    w7arena.expand oneMoveGame 0 = (w7arena, 0) :=
  ⟨by decide, by decide, C7_expand_exhausted w7arena oneMoveGame 0 (by decide) (by decide)⟩

/-- In a well-formed arena the parent chain of an in-bounds node reaches
the root. -/
theorem parentChain_root_mem {σ : Type} [Inhabited σ] (t : MCTS σ) (h : ArenaInv t) :
    ∀ i, i < t.nodes.length → 0 ∈ parentChain t i := by
  obtain ⟨_, _, hpar, hnone, _, _⟩ := h
  intro i
  induction i using Nat.strong_induction_on with
  | _ i ih =>
    intro hlt
    rw [parentChain_eq]
    cases hp : (t.nodes.getD i default).parent with
    | none =>
      have : i = 0 := (hnone i hlt).1 hp
      simp [this]
    | some p =>
      dsimp only
      have hpi : p < i := hpar i hlt p hp
      rw [if_pos hpi]
      exact List.mem_cons_of_mem _ (ih p hpi (by omega))

theorem parentChain_head {σ : Type} [Inhabited σ] (t : MCTS σ) (i : Nat) :
    (parentChain t i).head? = some i := by
  rw [parentChain_eq]
  cases (t.nodes.getD i default).parent with
  | none => rfl
  | some p =>
    dsimp only
    by_cases h : p < i
    · rw [if_pos h]
      rfl
    · rw [if_neg h]
      rfl

/-- Claim C4: `backpropagate` adds exactly 1 to `visits` and exactly the
reward to `wins` at the given node and at every node of its parent chain
(which starts at the node and, in a well-formed arena, contains the
root), with the same un-negated reward at every level; nodes off the
chain and the arena size are untouched. -/
theorem C4_backpropagate_chain {σ : Type} [Inhabited σ] (t : MCTS σ) (i : Nat) (r : ℚ) :
    (t.backpropagate i r).nodes.length = t.nodes.length ∧
    (∀ j, j < t.nodes.length →
      (t.backpropagate i r).nodes.getD j default =
        (if j ∈ parentChain t i then
          { t.nodes.getD j default with
            visits := (t.nodes.getD j default).visits + 1,
            wins := (t.nodes.getD j default).wins + r }
        else t.nodes.getD j default)) ∧
    (parentChain t i).head? = some i ∧
    (ArenaInv t → i < t.nodes.length → 0 ∈ parentChain t i) := by
  refine ⟨backpropagate_length i t r, ?_, parentChain_head t i, ?_⟩
  · intro j hj
    rw [backpropagate_getD]
    by_cases hm : j ∈ parentChain t i
    · rw [if_pos ⟨hm, hj⟩, if_pos hm]
    · rw [if_neg (fun hc => hm hc.1), if_neg hm]
  · intro hA hlt
    exact parentChain_root_mem t hA i hlt

/-- The concrete arena used by the C4 witness: a root and one child. -/
def w4arena : MCTS Bool :=
  ⟨0, [⟨false, none, [1], 1, 1, [], none⟩, ⟨true, some 0, [], 1, 1, [], some 0⟩]⟩

theorem w4arena_inv : ArenaInv w4arena := by
  refine ⟨rfl, by decide, ?_, ?_, ?_, ?_⟩
  · intro j hj p hp
    match j with
    | 0 =>
      have h0 : (w4arena.nodes.getD 0 default).parent = none := by decide
      rw [h0] at hp
      exact Option.noConfusion hp
    | 1 =>
      have : p = 0 := by
        have h0 : (w4arena.nodes.getD 1 default).parent = some 0 := by decide
        rw [h0] at hp
        exact (Option.some.inj hp).symm
      omega
  · intro j hj
    match j with
    | 0 => exact ⟨fun _ => rfl, fun _ => by decide⟩
    | 1 => exact ⟨fun hc => absurd hc (by decide), fun hc => absurd hc (by decide)⟩
  · intro j hj
    match j with
    | 0 => exact ⟨fun _ => rfl, fun _ => by decide⟩
    | 1 => exact ⟨fun hc => absurd hc (by decide), fun hc => absurd hc (by decide)⟩
  · intro j hj c hc
    match j with
    | 0 =>
      have hc1 : c = 1 := by
        have h0 : (w4arena.nodes.getD 0 default).children = [1] := by decide
        rw [h0] at hc
        simpa using hc
      have hl : w4arena.nodes.length = 2 := by decide
      constructor <;> omega
    | 1 =>
      have h0 : (w4arena.nodes.getD 1 default).children = [] := by decide
      rw [h0] at hc
      exact absurd hc (by simp)

theorem C4_witness :
    (1 < w4arena.nodes.length) ∧ 0 ∈ parentChain w4arena 1 ∧
    (w4arena.backpropagate 1 1).nodes.getD 1 default =
      (if 1 ∈ parentChain w4arena 1 then
        { w4arena.nodes.getD 1 default with
          visits := (w4arena.nodes.getD 1 default).visits + 1,
          wins := (w4arena.nodes.getD 1 default).wins + 1 }
      else w4arena.nodes.getD 1 default) :=
  ⟨by decide,
   (C4_backpropagate_chain w4arena 1 1).2.2.2 w4arena_inv (by decide),
   (C4_backpropagate_chain w4arena 1 1).2.1 1 (by decide)⟩

/-- Claim C5: from the arena built by `new`, under any sequence of the
mutating calls performed by `get_best_move` (`expand`, and `backpropagate`
with a reward `simulate` can produce — `select` and `simulate` mutate
nothing), every node satisfies `0 ≤ wins ≤ visits`; and `simulate` only
produces rewards in `{0, 0.5, 1}`. -/
theorem C5_wins_le_visits {σ : Type} [Inhabited σ] (g : Game σ) (t : MCTS σ) :
    (Reach g t → ∀ j, j < t.nodes.length →
      0 ≤ (t.nodes.getD j default).wins ∧
      (t.nodes.getD j default).wins ≤ ((t.nodes.getD j default).visits : ℚ)) ∧
    (∀ (rng : Nat → Nat) (fuel i : Nat) (r : ℚ),
      t.simulate g rng fuel i = some r → r = 0 ∨ r = 1 / 2 ∨ r = 1) := by
  constructor
  · intro h j hj
    exact Reach_winsLE g t h j hj
  · intro rng fuel i r h
    exact simulate_range t g rng fuel i r h

theorem C5_witness :
    (0 : Nat) < (MCTS.new oneMoveGame false).nodes.length ∧
    0 ≤ ((MCTS.new oneMoveGame false).nodes.getD 0 default).wins ∧
    ((MCTS.new oneMoveGame false).nodes.getD 0 default).wins ≤
      (((MCTS.new oneMoveGame false).nodes.getD 0 default).visits : ℚ) :=
  ⟨by decide,
   (C5_wins_le_visits oneMoveGame (MCTS.new oneMoveGame false)).1
     (Reach.base false) 0 (by decide)⟩

/-- Claim C6: at every loop-head state of the `get_best_move` search loop
(where `select` is invoked), every non-root node has at least one visit —
each completed iteration simulates and backpropagates the expanded node
before the next `select` — so the `visits` divisors of the UCT comparison
over any node's children are never zero. -/
theorem C6_no_zero_visits {σ : Type} [Inhabited σ] (g : Game σ) (t : MCTS σ)
    (h : LoopReach g t) :
    (∀ j, j < t.nodes.length → j ≠ 0 → 1 ≤ (t.nodes.getD j default).visits) ∧
    (∀ i, i < t.nodes.length → ∀ c ∈ (t.nodes.getD i default).children,
      (t.nodes.getD c default).visits ≠ 0) := by
  obtain ⟨hA, hV⟩ := LoopReach_inv g t h
  refine ⟨hV, ?_⟩
  intro i hi c hc
  obtain ⟨hci, hcl⟩ := hA.2.2.2.2.2 i hi c hc
  have := hV c hcl (by omega)
  omega

/-- The random streams used by the loop witnesses. -/
def wrng : Nat → Nat → Nat := fun _ _ => 0

/-- The loop-head arena after one completed iteration of the witness
game, used by the C1, C6 and C8 witnesses. -/
noncomputable def wloop : MCTS Bool :=
  ((MCTS.new oneMoveGame false).expand oneMoveGame
      ((MCTS.new oneMoveGame false).select (MCTS.new oneMoveGame false).nodes.length
        (MCTS.new oneMoveGame false).root)).1.backpropagate
    ((MCTS.new oneMoveGame false).expand oneMoveGame
      ((MCTS.new oneMoveGame false).select (MCTS.new oneMoveGame false).nodes.length
        (MCTS.new oneMoveGame false).root)).2 1

theorem C6_witness :
    1 < wloop.nodes.length ∧ (1 : Nat) ≠ 0 ∧ 1 ≤ (wloop.nodes.getD 1 default).visits :=
  ⟨by decide, by decide,
   (C6_no_zero_visits oneMoveGame wloop
     (LoopReach.step (MCTS.new oneMoveGame false) (fun _ => 0) 1 1
       (LoopReach.base false) (by decide) (by decide))).1 1 (by decide) (by decide)⟩

theorem searchLoop_steps_le {σ : Type} [Inhabited σ] (g : Game σ) (rng : Nat → Nat → Nat)
    (sf : Nat) :
    ∀ (k : Nat) (t t' : MCTS σ) (n : Nat),
      searchLoop g rng sf k t = some (t', n) → n ≤ k := by
  intro k
  induction k with
  | zero =>
    intro t t' n hs
    rw [searchLoop_zero] at hs
    have := (Prod.mk.injEq .. ▸ Option.some.inj hs).2
    omega
  | succ k ih =>
    intro t t' n hs
    rw [searchLoop_succ] at hs
    dsimp only at hs
    by_cases hbrk : (t.expand g (t.select t.nodes.length t.root)).2 =
        t.select t.nodes.length t.root
    · rw [if_pos hbrk] at hs
      have := (Prod.mk.injEq .. ▸ Option.some.inj hs).2
      omega
    · rw [if_neg hbrk] at hs
      cases hsim : (t.expand g (t.select t.nodes.length t.root)).1.simulate g (rng k) sf
          (t.expand g (t.select t.nodes.length t.root)).2 with
      | none =>
        rw [hsim] at hs
        exact absurd hs (by simp)
      | some r =>
        rw [hsim] at hs
        dsimp only at hs
        cases hrec : searchLoop g rng sf k
            ((t.expand g (t.select t.nodes.length t.root)).1.backpropagate
              (t.expand g (t.select t.nodes.length t.root)).2 r) with
        | none =>
          rw [hrec] at hs
          exact absurd hs (by simp)
        | some q =>
          rw [hrec] at hs
          simp only [Option.map_some'] at hs
          have h2 := (Prod.mk.injEq .. ▸ Option.some.inj hs).2
          have := ih _ q.1 q.2 (by rw [hrec])
          omega

/-- Claim C1: the `get_best_move` loop completes at most `iterations`
simulate-and-backpropagate rounds; an iteration stops the loop (with the
arena unchanged) exactly when `expand` hands back the selected index, and
otherwise simulates the expanded node, backpropagates the reward and
continues; the returned action is the `last_action` of a root child of
maximal `visits` (robust child, not UCT). -/
theorem C1_get_best_move_loop {σ : Type} [Inhabited σ] (g : Game σ) (rng : Nat → Nat → Nat)
    (sf k : Nat) (t : MCTS σ) :
    (∀ (t' : MCTS σ) (n : Nat), searchLoop g rng sf k t = some (t', n) → n ≤ k) ∧
    (searchLoop g rng sf (k + 1) t =
      (if (t.expand g (t.select t.nodes.length t.root)).2 = t.select t.nodes.length t.root
       then some (t, 0)
       else
         match (t.expand g (t.select t.nodes.length t.root)).1.simulate g (rng k) sf
             (t.expand g (t.select t.nodes.length t.root)).2 with
         | none => none
         | some r =>
           Option.map (fun q => (q.1, q.2 + 1))
             (searchLoop g rng sf k
               ((t.expand g (t.select t.nodes.length t.root)).1.backpropagate
                 (t.expand g (t.select t.nodes.length t.root)).2 r)))) ∧
    (∀ (t' : MCTS σ) (n a : Nat), searchLoop g rng sf k t = some (t', n) →
      t.get_best_move g rng sf k = some a →
      ∃ c ∈ (t'.nodes.getD t'.root default).children,
        (t'.nodes.getD c default).last_action = some a ∧
        ∀ d ∈ (t'.nodes.getD t'.root default).children,
          (t'.nodes.getD d default).visits ≤ (t'.nodes.getD c default).visits) := by
  refine ⟨searchLoop_steps_le g rng sf k t, ?_, ?_⟩
  · rw [searchLoop_succ]
    dsimp only
    by_cases hbrk : (t.expand g (t.select t.nodes.length t.root)).2 =
        t.select t.nodes.length t.root
    · rw [if_pos hbrk, if_pos hbrk, expand_break t g _ hbrk]
    · rw [if_neg hbrk, if_neg hbrk]
  · intro t' n a hs hb
    unfold MCTS.get_best_move at hb
    rw [hs] at hb
    dsimp only at hb
    cases hm : maxBy
        (fun x y =>
          cmpLin (t'.nodes.getD x default).visits (t'.nodes.getD y default).visits)
        ((t'.nodes.getD t'.root default).children) with
    | none =>
      rw [hm] at hb
      exact absurd hb (by simp)
    | some c =>
      rw [hm] at hb
      obtain ⟨hmem, hmax⟩ := maxBy_spec (fun x => (t'.nodes.getD x default).visits) _ c hm
      exact ⟨c, hmem, hb, hmax⟩

theorem C1_witness :
    searchLoop oneMoveGame wrng 1 1 (MCTS.new oneMoveGame false) = some (wloop, 1) ∧
    (MCTS.new oneMoveGame false).get_best_move oneMoveGame wrng 1 1 = some 0 ∧
    ∃ c ∈ (wloop.nodes.getD wloop.root default).children,
      (wloop.nodes.getD c default).last_action = some 0 ∧
      ∀ d ∈ (wloop.nodes.getD wloop.root default).children,
        (wloop.nodes.getD d default).visits ≤ (wloop.nodes.getD c default).visits :=
  ⟨by rfl, by rfl,
   (C1_get_best_move_loop oneMoveGame wrng 1 1 (MCTS.new oneMoveGame false)).2.2
     wloop 1 0 (by rfl) (by rfl)⟩

/-- Claim C8: when the search loop completes without a `simulate` panic,
`get_best_move` fails (the `"Failed to get best move"` panic, modelled by
`none`) exactly when the root has no children after the loop; with at
least one root child it returns an action. -/
theorem C8_root_children_panic {σ : Type} [Inhabited σ] (g : Game σ) (s : σ)
    (rng : Nat → Nat → Nat) (sf k : Nat) (t' : MCTS σ) (n : Nat)
    (hs : searchLoop g rng sf k (MCTS.new g s) = some (t', n)) :
    ((MCTS.new g s).get_best_move g rng sf k = none ↔
      (t'.nodes.getD t'.root default).children = []) ∧
    ((t'.nodes.getD t'.root default).children ≠ [] →
      ∃ a, (MCTS.new g s).get_best_move g rng sf k = some a) := by
  have hA : ArenaInv t' :=
    searchLoop_inv g rng sf
      (fun t i h => ArenaInv_expand t g i h)
      (fun t i r h => ArenaInv_backpropagate t i r h)
      k _ t' n hs (ArenaInv_new g s)
  unfold MCTS.get_best_move
  rw [hs]
  dsimp only
  cases hm : maxBy
      (fun x y => cmpLin (t'.nodes.getD x default).visits (t'.nodes.getD y default).visits)
      ((t'.nodes.getD t'.root default).children) with
  | none =>
    have hce : (t'.nodes.getD t'.root default).children = [] := by
      by_contra hne
      obtain ⟨m, hm2⟩ := maxBy_isSome _ _ hne
      rw [hm2] at hm
      exact Option.noConfusion hm
    exact ⟨⟨fun _ => hce, fun _ => rfl⟩, fun hne => absurd hce hne⟩
  | some c =>
    dsimp only
    obtain ⟨hmem, _⟩ := maxBy_spec (fun x => (t'.nodes.getD x default).visits) _ c hm
    obtain ⟨hroot, hpos, _, _, hlast, hch⟩ := hA
    rw [hroot] at hmem
    obtain ⟨hc0, hcl⟩ := hch 0 hpos c hmem
    have hla : (t'.nodes.getD c default).last_action ≠ none := by
      intro hcon
      have := (hlast c hcl).1 hcon
      omega
    cases hlac : (t'.nodes.getD c default).last_action with
    | none => exact absurd hlac hla
    | some a =>
      constructor
      · constructor
        · intro hcon
          exact absurd hcon (by simp)
        · intro hcon
          rw [hroot] at hcon
          rw [hcon] at hmem
          exact absurd hmem (by simp)
      · intro _
        exact ⟨a, rfl⟩

theorem C8_witness :
    searchLoop oneMoveGame wrng 1 1 (MCTS.new oneMoveGame false) = some (wloop, 1) ∧
    ((MCTS.new oneMoveGame false).get_best_move oneMoveGame wrng 1 1 = none ↔
      (wloop.nodes.getD wloop.root default).children = []) :=
  ⟨by rfl,
   (C8_root_children_panic oneMoveGame false wrng 1 1 wloop 1 (by rfl)).1⟩

/-- Claim C9: on an initial state with a legal move and a positive
iteration budget, any action `get_best_move` returns is a legal move of
that initial state. -/
theorem C9_best_move_legal {σ : Type} [Inhabited σ] (g : Game σ) (s : σ)
    (rng : Nat → Nat → Nat) (sf k a : Nat)
    (_hlegal : g.get_legal_moves s ≠ []) (_hk : 1 ≤ k)
    (hb : (MCTS.new g s).get_best_move g rng sf k = some a) :
    a ∈ g.get_legal_moves s := by
  unfold MCTS.get_best_move at hb
  cases hs : searchLoop g rng sf k (MCTS.new g s) with
  | none =>
    rw [hs] at hb
    exact absurd hb (by simp)
  | some q =>
    rw [hs] at hb
    dsimp only at hb
    have hP : ArenaInv q.1 ∧ RootActs g s q.1 :=
      @searchLoop_inv σ _ g rng sf (fun t => ArenaInv t ∧ RootActs g s t)
        (fun t i h => ⟨ArenaInv_expand t g i h.1, RootActs_expand g s t i h.1 h.2⟩)
        (fun t i r h =>
          ⟨ArenaInv_backpropagate t i r h.1, RootActs_backpropagate g s t i r h.2⟩)
        k _ q.1 q.2 (by rw [hs]) ⟨ArenaInv_new g s, RootActs_new g s⟩
    obtain ⟨hA, hR⟩ := hP
    cases hm : maxBy
        (fun x y =>
          cmpLin ((q.1).nodes.getD x default).visits ((q.1).nodes.getD y default).visits)
        (((q.1).nodes.getD (q.1).root default).children) with
    | none =>
      rw [hm] at hb
      exact absurd hb (by simp)
    | some c =>
      rw [hm] at hb
      obtain ⟨hmem, _⟩ := maxBy_spec (fun x => ((q.1).nodes.getD x default).visits) _ c hm
      rw [hA.1] at hmem
      exact hR.2 c hmem a hb

theorem C9_witness :
    oneMoveGame.get_legal_moves false ≠ [] ∧
    (MCTS.new oneMoveGame false).get_best_move oneMoveGame wrng 1 1 = some 0 ∧
    0 ∈ oneMoveGame.get_legal_moves false :=
  ⟨by decide, by rfl,
   C9_best_move_legal oneMoveGame false wrng 1 1 0 (by decide) (by decide) (by rfl)⟩

theorem ticLines_headD_mem : ∀ l ∈ ticLines, l.headD 0 ∈ l := by decide

theorem findSome_lineWinner (b : List (Option Player)) :
    ∀ (L : List (List Nat)),
      (∃ l ∈ L, lineWinner b l = some Player.X) →
      (∀ l ∈ L, lineWinner b l ≠ some Player.O) →
      L.findSome? (fun l => lineWinner b l) = some Player.X := by
  intro L
  induction L with
  | nil =>
    intro hX _
    simp at hX
  | cons l L ih =>
    intro hX hO
    rw [List.findSome?_cons]
    cases hw : lineWinner b l with
    | some p =>
      cases p with
      | X => rfl
      | O => exact absurd hw (hO l (List.mem_cons_self _ _))
    | none =>
      obtain ⟨l', hl', hwl'⟩ := hX
      rcases List.mem_cons.1 hl' with h1 | h1
      · rw [h1] at hwl'
        rw [hwl'] at hw
        exact Option.noConfusion hw
      · exact ih ⟨l', h1, hwl'⟩ (fun m hm => hO m (List.mem_cons_of_mem _ hm))

/-- The board of the C10 counterexample: O holds the first row, X the
second, three cells still empty. -/
def cexBoard : List (Option Player) :=
  [some Player.O, some Player.O, some Player.O,
   some Player.X, some Player.X, some Player.X, none, none, none]

/-- Claim C10 as stated is false: this 9-cell board contains a completed
three-in-a-row for X (cells 3,4,5), yet `get_winner` returns `Some(-1)`
(O's first row is found first), not `Some(1)`. -/
theorem C10_counterexample :
    cexBoard.length = 9 ∧
    (∃ l ∈ ticLines, ∀ j ∈ l, cexBoard.getD j none = some Player.X) ∧
    (TicTacToe.get_winner ⟨cexBoard, Player.X⟩ ≠ some 1) := by
  refine ⟨by decide, ⟨[3, 4, 5], by decide, by decide⟩, by decide⟩

/-- Claim C10, amended: on every board with a completed three-in-a-row for
X and no completed three-in-a-row for O, `get_winner` returns `Some(1)`
and `is_terminal` is true, regardless of remaining empty cells. -/
theorem C10_x_line_winner (t : TicTacToe)
    (hx : ∃ l ∈ ticLines, ∀ j ∈ l, t.board.getD j none = some Player.X)
    (ho : ∀ l ∈ ticLines, ¬∀ j ∈ l, t.board.getD j none = some Player.O) :
    t.get_winner = some 1 ∧ t.is_terminal = true := by
  obtain ⟨l, hl, hall⟩ := hx
  have hlwX : lineWinner t.board l = some Player.X := by
    unfold lineWinner
    rw [hall (l.headD 0) (ticLines_headD_mem l hl)]
    dsimp only
    rw [if_pos hall]
  have hlwO : ∀ m ∈ ticLines, lineWinner t.board m ≠ some Player.O := by
    intro m hm hcon
    unfold lineWinner at hcon
    cases hh : t.board.getD (m.headD 0) none with
    | none =>
      rw [hh] at hcon
      exact Option.noConfusion hcon
    | some p =>
      rw [hh] at hcon
      dsimp only at hcon
      by_cases hallm : ∀ j ∈ m, t.board.getD j none = some p
      · rw [if_pos hallm] at hcon
        have hp : p = Player.O := Option.some.inj hcon
        subst hp
        exact ho m hm hallm
      · rw [if_neg hallm] at hcon
        exact Option.noConfusion hcon
  have hw : t.get_winner = some 1 := by
    unfold TicTacToe.get_winner
    rw [findSome_lineWinner t.board ticLines ⟨l, hl, hlwX⟩ hlwO]
  refine ⟨hw, ?_⟩
  unfold TicTacToe.is_terminal
  rw [hw]
  rfl

/-- The board of the C10 witness: X holds the first row, one O placed,
five cells still empty. -/
def w10board : List (Option Player) :=
  [some Player.X, some Player.X, some Player.X,
   none, none, none, none, none, some Player.O]

theorem C10_witness :
    (∃ l ∈ ticLines, ∀ j ∈ l, w10board.getD j none = some Player.X) ∧
    (∀ l ∈ ticLines, ¬∀ j ∈ l, w10board.getD j none = some Player.O) ∧
    TicTacToe.get_winner ⟨w10board, Player.O⟩ = some 1 ∧
    TicTacToe.is_terminal ⟨w10board, Player.O⟩ = true :=
  ⟨⟨[0, 1, 2], by decide, by decide⟩, by decide,
   (C10_x_line_winner ⟨w10board, Player.O⟩ ⟨[0, 1, 2], by decide, by decide⟩ (by decide)).1,
   (C10_x_line_winner ⟨w10board, Player.O⟩ ⟨[0, 1, 2], by decide, by decide⟩ (by decide)).2⟩
